import Mathlib

/-!
Shallow embedding of the hytk "mirage tank" image pipeline
(src/unnamed/part_000 and src/types.ts) and verification of its
specified properties.

JavaScript numbers are modelled as exact rationals (ℚ); pixel buffers as
lists of naturals.  The `Uint8ClampedArray` store conversion is modelled
after the ECMAScript ToUint8Clamp operation.
-/

/-- `Math.max(0, Math.min(255, v))`, the clamp used throughout the compositor. -/
def clamp255 (v : ℚ) : ℚ := max 0 (min 255 v)

/-- The processing configuration (src/types.ts, `ProcessingConfig`).
`steganography` holds the UTF-8 bytes of the payload text. -/
structure ProcessingConfig where
  surfaceMin : ℚ
  hiddenMax : ℚ
  grayscale : Bool
  dithering : ℚ
  steganography : List ℕ
  width : Option ℕ
  height : Option ℕ

/-- `const scaleA = (255 - config.surfaceMin) / 255`. -/
def scaleA (cfg : ProcessingConfig) : ℚ := (255 - cfg.surfaceMin) / 255

/-- `const offsetA = config.surfaceMin`. -/
def offsetA (cfg : ProcessingConfig) : ℚ := cfg.surfaceMin

/-- `const scaleB = config.hiddenMax / 255`. -/
def scaleB (cfg : ProcessingConfig) : ℚ := cfg.hiddenMax / 255

/-- `const ditheringStrength = config.dithering * 10`. -/
def ditheringStrength (cfg : ProcessingConfig) : ℚ := cfg.dithering * 10

/-- The per-pixel noise term.  `rand` models the `Math.random()` sample for the
pixel; the source adds `(Math.random() - 0.5) * ditheringStrength` to all six
channel samples only when `ditheringStrength > 0`. -/
def ditherNoise (cfg : ProcessingConfig) (rand : ℚ) : ℚ :=
  if ditheringStrength cfg > 0 then (rand - 1/2) * ditheringStrength cfg else 0

/-- BT.709 luminance `0.2126 * r + 0.7152 * g + 0.0722 * b`. -/
def luminance (r g b : ℚ) : ℚ := (2126/10000) * r + (7152/10000) * g + (722/10000) * b

/-- The surface (image A) linear remap with clamp:
`Math.max(0, Math.min(255, v * scaleA + offsetA))`. -/
def remapA (cfg : ProcessingConfig) (v : ℚ) : ℚ := clamp255 (v * scaleA cfg + offsetA cfg)

/-- The hidden (image B) linear remap with clamp:
`Math.max(0, Math.min(255, v * scaleB))`. -/
def remapB (cfg : ProcessingConfig) (v : ℚ) : ℚ := clamp255 (v * scaleB cfg)

/-- The dominance clamp `if (b > a) b = a`: the value of `b` afterwards. -/
def domClamp (a b : ℚ) : ℚ := if b > a then a else b

/-- The per-channel alpha candidate `255 - (a - b)`. -/
def alphaCand (a b : ℚ) : ℚ := 255 - (a - b)

/-- One output pixel before byte quantization. -/
structure OutPixel where
  r : ℚ
  g : ℚ
  b : ℚ
  a : ℚ

/-- The grayscale branch of the per-pixel compositor, applied to the six
(possibly dithered) channel samples. -/
def grayPixel (cfg : ProcessingConfig) (rA gA bA rB gB bB : ℚ) : OutPixel :=
  let lumA2 := remapA cfg (luminance rA gA bA)
  let lumB2 := domClamp lumA2 (remapB cfg (luminance rB gB bB))
  let alpha := alphaCand lumA2 lumB2
  let gray := if alpha > 0 then lumB2 * 255 / alpha else 0
  ⟨gray, gray, gray, alpha⟩

/-- The color branch of the per-pixel compositor, applied to the six
(possibly dithered) channel samples. -/
def colorPixel (cfg : ProcessingConfig) (rA gA bA rB gB bB : ℚ) : OutPixel :=
  let rA2 := remapA cfg rA
  let gA2 := remapA cfg gA
  let bA2 := remapA cfg bA
  let rB2 := domClamp rA2 (remapB cfg rB)
  let gB2 := domClamp gA2 (remapB cfg gB)
  let bB2 := domClamp bA2 (remapB cfg bB)
  let finalAlpha := max (alphaCand rA2 rB2) (max (alphaCand gA2 gB2) (alphaCand bA2 bB2))
  let rOut := if finalAlpha > 0 then rB2 * 255 / finalAlpha else 0
  let gOut := if finalAlpha > 0 then gB2 * 255 / finalAlpha else 0
  let bOut := if finalAlpha > 0 then bB2 * 255 / finalAlpha else 0
  ⟨rOut, gOut, bOut, finalAlpha⟩

/-- One input pixel's color samples (input alpha is ignored by the source). -/
structure Pix where
  r : ℚ
  g : ℚ
  b : ℚ

/-- The whole per-pixel transform: dither both samples, then branch on
`config.grayscale`. -/
def compositePixel (cfg : ProcessingConfig) (a b : Pix) (rand : ℚ) : OutPixel :=
  let noise := ditherNoise cfg rand
  if cfg.grayscale then
    grayPixel cfg (a.r + noise) (a.g + noise) (a.b + noise)
      (b.r + noise) (b.g + noise) (b.b + noise)
  else
    colorPixel cfg (a.r + noise) (a.g + noise) (a.b + noise)
      (b.r + noise) (b.g + noise) (b.b + noise)

/-- Rounding of a nonnegative rational to the nearest natural with ties to
even: the rounding step of the ECMAScript ToUint8Clamp operation. -/
def roundTiesEven (q : ℚ) : ℕ :=
  let f := (⌊q⌋).toNat
  if (f : ℚ) + 1/2 < q then f + 1
  else if q < (f : ℚ) + 1/2 then f
  else if f % 2 = 1 then f + 1 else f

/-- The conversion performed by an assignment into a `Uint8ClampedArray`
entry (the writes `resultData.data[i] = v` in the source), per the
ECMAScript ToUint8Clamp operation: clamp to [0, 255], then round to the
nearest integer with ties to even. -/
def toUint8Clamp (q : ℚ) : ℕ :=
  if q ≤ 0 then 0 else if 255 ≤ q then 255 else roundTiesEven q

/-- The four bytes stored for one output pixel. -/
def pixelBytes (p : OutPixel) : List ℕ :=
  [toUint8Clamp p.r, toUint8Clamp p.g, toUint8Clamp p.b, toUint8Clamp p.a]

/-- The compositing loop over the zipped pixel pairs, threading the running
pixel index into the noise source. -/
def compositeFrom (cfg : ProcessingConfig) : List (Pix × Pix) → (ℕ → ℚ) → ℕ → List ℕ
  | [], _, _ => []
  | pq :: rest, rand, i =>
      pixelBytes (compositePixel cfg pq.1 pq.2 (rand i)) ++ compositeFrom cfg rest rand (i + 1)

/-- The full compositing pass over an input buffer. -/
def compositeBuffer (cfg : ProcessingConfig) (input : List (Pix × Pix)) (rand : ℕ → ℚ) :
    List ℕ :=
  compositeFrom cfg input rand 0

/-- Output dimension selection `config.width || Math.min(a, b)`: a JavaScript
`||` falls back on any falsy value, so an absent dimension (`none`) and an
explicit `0` both select the minimum of the two source dimensions. -/
def outputDim (explicit : Option ℕ) (dA dB : ℕ) : ℕ :=
  match explicit with
  | none => min dA dB
  | some d => if d = 0 then min dA dB else d

/-- `const width = config.width || Math.min(surfaceImg.width, hiddenImg.width)`. -/
def outputWidth (cfg : ProcessingConfig) (wA wB : ℕ) : ℕ := outputDim cfg.width wA wB

/-- `const height = config.height || Math.min(surfaceImg.height, hiddenImg.height)`. -/
def outputHeight (cfg : ProcessingConfig) (hA hB : ℕ) : ℕ := outputDim cfg.height hA hB

/-- Cover-fit result: render size and placement offset. -/
structure CoverDim where
  width : ℚ
  height : ℚ
  x : ℚ
  y : ℚ

/-- `getCoverDimensions` from the source, with `imgRatio = imgWidth / imgHeight`
and `targetRatio = targetWidth / targetHeight` inlined. -/
def getCoverDimensions (imgWidth imgHeight targetWidth targetHeight : ℚ) : CoverDim :=
  if imgWidth / imgHeight > targetWidth / targetHeight then
    ⟨targetHeight * (imgWidth / imgHeight), targetHeight,
      (targetWidth - targetHeight * (imgWidth / imgHeight)) / 2, 0⟩
  else
    ⟨targetWidth, targetWidth / (imgWidth / imgHeight), 0,
      (targetHeight - targetWidth / (imgWidth / imgHeight)) / 2⟩

/-- Bit index `i` lands at buffer index `pixelIndex * 4 + channelOffset` with
`pixelIndex = ⌊i / 3⌋` and `channelOffset = i % 3`. -/
def bitIndex (k : ℕ) : ℕ := (k / 3) * 4 + k % 3

/-- `writeBit`: when the cursor is still below capacity, clear the LSB of the
addressed channel byte and set it to the bit (`data[idx] = (data[idx] & 0xFE) | (bit & 1)`);
past capacity the write is dropped. -/
def writeBit (data : List ℕ) (cap cursor bit : ℕ) : List ℕ :=
  if cursor < cap then
    data.set (bitIndex cursor) (((data.getD (bitIndex cursor) 0) &&& 0xFE) ||| (bit &&& 1))
  else data

/-- Writing a list of bits at consecutive cursor positions. -/
def writeBits (cap : ℕ) : List ℕ → ℕ → List ℕ → List ℕ
  | data, _, [] => data
  | data, cursor, b :: rest => writeBits cap (writeBit data cap cursor b) (cursor + 1) rest

/-- The 32 length-header bits, least significant first: `(length >> i) & 1`. -/
def lengthBits (len : ℕ) : List ℕ := (List.range 32).map fun i => (len >>> i) &&& 1

/-- The 8 bits of one payload byte, least significant first: `(byte >> j) & 1`. -/
def byteBits (byte : ℕ) : List ℕ := (List.range 8).map fun j => (byte >>> j) &&& 1

/-- The full bit stream: 32-bit length header then each byte low-bit-first. -/
def payloadBits (bytes : List ℕ) : List ℕ :=
  lengthBits bytes.length ++ (bytes.map byteBits).flatten

/-- `embedSteganography`: no-op on an empty payload, otherwise write the bit
stream from cursor 0 with capacity `(data.length / 4) * 3` (3 bits per pixel). -/
def embedSteganography (data : List ℕ) (bytes : List ℕ) : List ℕ :=
  if bytes.isEmpty then data
  else writeBits ((data.length / 4) * 3) data 0 (payloadBits bytes)

/-- The pipeline tail: composite, then embed the payload when it is non-empty
(`if (config.steganography && config.steganography.length > 0)`). -/
def processImage (cfg : ProcessingConfig) (input : List (Pix × Pix)) (rand : ℕ → ℚ) :
    List ℕ :=
  if cfg.steganography.length > 0 then
    embedSteganography (compositeBuffer cfg input rand) cfg.steganography
  else compositeBuffer cfg input rand

/-- Modelled from the spec: the repository ships no decoder, and §4.4 requires
symmetric extraction; reading bit `k` reads the LSB of the channel byte the
encoder maps bit `k` to. -/
def readBit (data : List ℕ) (k : ℕ) : ℕ := data.getD (bitIndex k) 0 % 2

/-- Modelled from the spec: assemble `count` extracted bits starting at bit
`start` into a natural, low bit first. -/
def readBitsLE (data : List ℕ) (start count : ℕ) : ℕ :=
  ((List.range count).map fun i => readBit data (start + i) * 2 ^ i).sum

/-- Modelled from the spec: read 32 bits low-bit-first as the payload length. -/
def extractLength (data : List ℕ) : ℕ := readBitsLE data 0 32

/-- Modelled from the spec: read `extractLength data` bytes, each 8 bits
low-bit-first, starting at bit 32. -/
def extractPayload (data : List ℕ) : List ℕ :=
  (List.range (extractLength data)).map fun j => readBitsLE data (32 + 8 * j) 8

/-- The grayscale configuration with the product defaults
`surfaceMin = 160, hiddenMax = 100` and dithering disabled. -/
def cfgDefaults : ProcessingConfig := ⟨160, 100, true, 0, [], none, none⟩

/-- A neutral grayscale configuration whose remaps are the identity on
[0, 255]: `surfaceMin = 0`, `hiddenMax = 255`, no dithering. -/
def cfgNeutral : ProcessingConfig := ⟨0, 255, true, 0, [], none, none⟩

/-- A configuration with an absent width and an explicit height of 0. -/
def cfgFalsyDims : ProcessingConfig := ⟨160, 100, true, 0, [], none, some 0⟩

/-! ### Helper lemmas about the clamps and the alpha candidates -/

theorem clamp255_nonneg (v : ℚ) : 0 ≤ clamp255 v := le_max_left 0 _

theorem clamp255_le_255 (v : ℚ) : clamp255 v ≤ 255 :=
  max_le (by norm_num) (min_le_left _ _)

theorem domClamp_nonneg (a b : ℚ) (ha : 0 ≤ a) (hb : 0 ≤ b) : 0 ≤ domClamp a b := by
  unfold domClamp; split_ifs <;> assumption

theorem domClamp_le_left (a b : ℚ) : domClamp a b ≤ a := by
  unfold domClamp
  split_ifs with h
  · exact le_rfl
  · exact le_of_not_lt h

theorem le_alphaCand (a b : ℚ) (ha : a ≤ 255) : b ≤ alphaCand a b := by
  unfold alphaCand; linarith

theorem alphaCand_nonneg (a b : ℚ) (ha : a ≤ 255) (hb : 0 ≤ b) : 0 ≤ alphaCand a b := by
  unfold alphaCand; linarith

theorem alphaCand_le_255 (a b : ℚ) (h : b ≤ a) : alphaCand a b ≤ 255 := by
  unfold alphaCand; linarith

/-- Bounds for an output channel `if α > 0 then b * 255 / α else 0`
when `0 ≤ b ≤ α`. -/
theorem outChannel_bounds (b α : ℚ) (hb : 0 ≤ b) (hle : b ≤ α) :
    0 ≤ (if α > 0 then b * 255 / α else 0) ∧ (if α > 0 then b * 255 / α else 0) ≤ 255 := by
  split_ifs with hα
  · constructor
    · positivity
    · rw [div_le_iff₀ hα]; nlinarith
  · norm_num

/-- Projection of the grayscale branch output: the derived alpha. -/
theorem grayPixel_a (cfg : ProcessingConfig) (rA gA bA rB gB bB : ℚ) :
    (grayPixel cfg rA gA bA rB gB bB).a =
      alphaCand (remapA cfg (luminance rA gA bA))
        (domClamp (remapA cfg (luminance rA gA bA)) (remapB cfg (luminance rB gB bB))) := rfl

/-- Projection of the grayscale branch output: the gray value. -/
theorem grayPixel_r (cfg : ProcessingConfig) (rA gA bA rB gB bB : ℚ) :
    (grayPixel cfg rA gA bA rB gB bB).r =
      (if (grayPixel cfg rA gA bA rB gB bB).a > 0 then
        domClamp (remapA cfg (luminance rA gA bA)) (remapB cfg (luminance rB gB bB)) * 255 /
          (grayPixel cfg rA gA bA rB gB bB).a
      else 0) := rfl

/-- In `grayPixel`, the dominance-clamped hidden luminance never exceeds the
derived alpha (the key inequality behind the gray-value range). -/
theorem grayPixel_lumB_le_alpha (cfg : ProcessingConfig) (rA gA bA rB gB bB : ℚ) :
    domClamp (remapA cfg (luminance rA gA bA)) (remapB cfg (luminance rB gB bB)) ≤
      (grayPixel cfg rA gA bA rB gB bB).a := by
  rw [grayPixel_a]
  exact le_alphaCand _ _ (clamp255_le_255 _)

/-- Quantization agrees with pure round-ties-to-even on inputs already
inside `[0, 255]`: the clamping branches never alter the value. -/
theorem toUint8Clamp_eq_roundTiesEven (q : ℚ) (h0 : 0 ≤ q) (h255 : q ≤ 255) :
    toUint8Clamp q = roundTiesEven q := by
  unfold toUint8Clamp
  split_ifs with hq0 hq255
  · have hq : q = 0 := le_antisymm hq0 h0
    subst hq
    unfold roundTiesEven
    norm_num
  · have hq : q = 255 := le_antisymm h255 hq255
    subst hq
    unfold roundTiesEven
    have hf : ⌊(255 : ℚ)⌋ = 255 := by norm_num
    rw [hf]
    have htn : Int.toNat 255 = 255 := rfl
    rw [htn]
    norm_num
  · rfl

/-! ### Claim theorems: compositor -/

/-- C1: In color mode, for every pixel, the output alpha equals the maximum of
the three per-channel alpha candidates `255 - (A_ch - B_ch)` computed after
remapping and per-channel dominance clamping, and consequently each output
color channel `(B_ch * 255) / finalAlpha` lies in [0, 255]. -/
theorem color_alpha_is_max_and_no_blowout (cfg : ProcessingConfig) (rA gA bA rB gB bB : ℚ) :
    (colorPixel cfg rA gA bA rB gB bB).a =
      max (alphaCand (remapA cfg rA) (domClamp (remapA cfg rA) (remapB cfg rB)))
        (max (alphaCand (remapA cfg gA) (domClamp (remapA cfg gA) (remapB cfg gB)))
          (alphaCand (remapA cfg bA) (domClamp (remapA cfg bA) (remapB cfg bB)))) ∧
    (0 ≤ (colorPixel cfg rA gA bA rB gB bB).r ∧ (colorPixel cfg rA gA bA rB gB bB).r ≤ 255) ∧
    (0 ≤ (colorPixel cfg rA gA bA rB gB bB).g ∧ (colorPixel cfg rA gA bA rB gB bB).g ≤ 255) ∧
    (0 ≤ (colorPixel cfg rA gA bA rB gB bB).b ∧ (colorPixel cfg rA gA bA rB gB bB).b ≤ 255) := by
  refine ⟨rfl, ?_, ?_, ?_⟩
  · have hb0 : 0 ≤ domClamp (remapA cfg rA) (remapB cfg rB) :=
      domClamp_nonneg _ _ (clamp255_nonneg _) (clamp255_nonneg _)
    have hble : domClamp (remapA cfg rA) (remapB cfg rB) ≤
        max (alphaCand (remapA cfg rA) (domClamp (remapA cfg rA) (remapB cfg rB)))
          (max (alphaCand (remapA cfg gA) (domClamp (remapA cfg gA) (remapB cfg gB)))
            (alphaCand (remapA cfg bA) (domClamp (remapA cfg bA) (remapB cfg bB)))) :=
      le_trans (le_alphaCand _ _ (clamp255_le_255 _)) (le_max_left _ _)
    exact outChannel_bounds _ _ hb0 hble
  · have hb0 : 0 ≤ domClamp (remapA cfg gA) (remapB cfg gB) :=
      domClamp_nonneg _ _ (clamp255_nonneg _) (clamp255_nonneg _)
    have hble : domClamp (remapA cfg gA) (remapB cfg gB) ≤
        max (alphaCand (remapA cfg rA) (domClamp (remapA cfg rA) (remapB cfg rB)))
          (max (alphaCand (remapA cfg gA) (domClamp (remapA cfg gA) (remapB cfg gB)))
            (alphaCand (remapA cfg bA) (domClamp (remapA cfg bA) (remapB cfg bB)))) :=
      le_trans (le_alphaCand _ _ (clamp255_le_255 _))
        (le_trans (le_max_left _ _) (le_max_right _ _))
    exact outChannel_bounds _ _ hb0 hble
  · have hb0 : 0 ≤ domClamp (remapA cfg bA) (remapB cfg bB) :=
      domClamp_nonneg _ _ (clamp255_nonneg _) (clamp255_nonneg _)
    have hble : domClamp (remapA cfg bA) (remapB cfg bB) ≤
        max (alphaCand (remapA cfg rA) (domClamp (remapA cfg rA) (remapB cfg rB)))
          (max (alphaCand (remapA cfg gA) (domClamp (remapA cfg gA) (remapB cfg gB)))
            (alphaCand (remapA cfg bA) (domClamp (remapA cfg bA) (remapB cfg bB)))) :=
      le_trans (le_alphaCand _ _ (clamp255_le_255 _))
        (le_trans (le_max_right _ _) (le_max_right _ _))
    exact outChannel_bounds _ _ hb0 hble

/-- C2: In grayscale mode the derived output alpha always lies in [0, 255];
moreover whenever the remapped luminances both equal 200 (so the dominance
clamp does not trigger), the alpha is 255 and the gray value is 200. -/
theorem gray_alpha_in_range :
    (∀ (cfg : ProcessingConfig) (rA gA bA rB gB bB : ℚ),
      0 ≤ (grayPixel cfg rA gA bA rB gB bB).a ∧ (grayPixel cfg rA gA bA rB gB bB).a ≤ 255) ∧
    (∀ (cfg : ProcessingConfig) (rA gA bA rB gB bB : ℚ),
      remapA cfg (luminance rA gA bA) = 200 → remapB cfg (luminance rB gB bB) = 200 →
      (grayPixel cfg rA gA bA rB gB bB).a = 255 ∧ (grayPixel cfg rA gA bA rB gB bB).r = 200) := by
  constructor
  · intro cfg rA gA bA rB gB bB
    rw [grayPixel_a]
    constructor
    · exact alphaCand_nonneg _ _ (clamp255_le_255 _)
        (domClamp_nonneg _ _ (clamp255_nonneg _) (clamp255_nonneg _))
    · exact alphaCand_le_255 _ _ (domClamp_le_left _ _)
  · intro cfg rA gA bA rB gB bB hA hB
    have ha : (grayPixel cfg rA gA bA rB gB bB).a = 255 := by
      rw [grayPixel_a, hA, hB]
      norm_num [domClamp, alphaCand]
    refine ⟨ha, ?_⟩
    rw [grayPixel_r, ha, hA, hB]
    norm_num [domClamp]

/-- C2 witness: at the neutral configuration on two solid-200 pixels the
remapped luminances are both 200, the alpha is 255 and the gray is 200. -/
theorem gray_alpha_in_range_witness :
    (grayPixel cfgNeutral 200 200 200 200 200 200).a = 255 ∧
    (grayPixel cfgNeutral 200 200 200 200 200 200).r = 200 :=
  gray_alpha_in_range.2 cfgNeutral 200 200 200 200 200 200
    (by norm_num [remapA, clamp255, luminance, scaleA, offsetA, cfgNeutral])
    (by norm_num [remapB, clamp255, luminance, scaleB, cfgNeutral])

/-- C10: In grayscale mode, for any configuration with `surfaceMin` and
`hiddenMax` in [0, 255], the computed gray value lies in [0, 255] (with
gray 0 at alpha 0), because the clamped hidden luminance never exceeds the
derived alpha; hence the byte store never clamps the gray value. -/
theorem gray_value_in_range (cfg : ProcessingConfig)
    (h1 : 0 ≤ cfg.surfaceMin) (h2 : cfg.surfaceMin ≤ 255)
    (h3 : 0 ≤ cfg.hiddenMax) (h4 : cfg.hiddenMax ≤ 255)
    (rA gA bA rB gB bB : ℚ) :
    0 ≤ (grayPixel cfg rA gA bA rB gB bB).r ∧ (grayPixel cfg rA gA bA rB gB bB).r ≤ 255 ∧
    domClamp (remapA cfg (luminance rA gA bA)) (remapB cfg (luminance rB gB bB)) ≤
      (grayPixel cfg rA gA bA rB gB bB).a ∧
    toUint8Clamp (grayPixel cfg rA gA bA rB gB bB).r =
      roundTiesEven (grayPixel cfg rA gA bA rB gB bB).r := by
  have hb0 : 0 ≤ domClamp (remapA cfg (luminance rA gA bA)) (remapB cfg (luminance rB gB bB)) :=
    domClamp_nonneg _ _ (clamp255_nonneg _) (clamp255_nonneg _)
  have hble := grayPixel_lumB_le_alpha cfg rA gA bA rB gB bB
  have hbounds := outChannel_bounds _ _ hb0 hble
  have hr := grayPixel_r cfg rA gA bA rB gB bB
  rw [← hr] at hbounds
  exact ⟨hbounds.1, hbounds.2, hble,
    toUint8Clamp_eq_roundTiesEven _ hbounds.1 hbounds.2⟩

/-- C10 witness: the gray-value range at the default configuration on two
solid-gray-128 pixels. -/
theorem gray_value_in_range_witness :
    0 ≤ (grayPixel cfgDefaults 128 128 128 128 128 128).r ∧
    (grayPixel cfgDefaults 128 128 128 128 128 128).r ≤ 255 ∧
    domClamp (remapA cfgDefaults (luminance 128 128 128))
      (remapB cfgDefaults (luminance 128 128 128)) ≤
      (grayPixel cfgDefaults 128 128 128 128 128 128).a ∧
    toUint8Clamp (grayPixel cfgDefaults 128 128 128 128 128 128).r =
      roundTiesEven (grayPixel cfgDefaults 128 128 128 128 128 128).r :=
  gray_value_in_range cfgDefaults (by norm_num [cfgDefaults]) (by norm_num [cfgDefaults])
    (by norm_num [cfgDefaults]) (by norm_num [cfgDefaults]) 128 128 128 128 128 128

/-- C8: With the product defaults `surfaceMin = 160, hiddenMax = 100` in
grayscale mode without dithering, a pixel where both sources are solid gray
(128, 128, 128) yields exactly `lumA2 = 128 * (95/255) + 160 ≈ 207.7`,
`lumB2 = 128 * (100/255) ≈ 50.2`, `alpha = 255 - (lumA2 - lumB2) ≈ 97.5`
and `gray = lumB2 * 255 / alpha ≈ 131.2` before byte quantization. -/
theorem defaults_remap_numeric :
    remapA cfgDefaults (luminance 128 128 128) = 128 * (95/255) + 160 ∧
    |remapA cfgDefaults (luminance 128 128 128) - 207.7| < 0.1 ∧
    remapB cfgDefaults (luminance 128 128 128) = 128 * (100/255) ∧
    |remapB cfgDefaults (luminance 128 128 128) - 50.2| < 0.1 ∧
    (grayPixel cfgDefaults 128 128 128 128 128 128).a =
      255 - (remapA cfgDefaults (luminance 128 128 128) -
        remapB cfgDefaults (luminance 128 128 128)) ∧
    |(grayPixel cfgDefaults 128 128 128 128 128 128).a - 97.5| < 0.1 ∧
    (grayPixel cfgDefaults 128 128 128 128 128 128).r =
      remapB cfgDefaults (luminance 128 128 128) * 255 /
        (grayPixel cfgDefaults 128 128 128 128 128 128).a ∧
    |(grayPixel cfgDefaults 128 128 128 128 128 128).r - 131.2| < 0.1 := by
  have hA : remapA cfgDefaults (luminance 128 128 128) = 10592/51 := by
    norm_num [remapA, clamp255, luminance, scaleA, offsetA, cfgDefaults]
  have hB : remapB cfgDefaults (luminance 128 128 128) = 2560/51 := by
    norm_num [remapB, clamp255, luminance, scaleB, cfgDefaults]
  have ha : (grayPixel cfgDefaults 128 128 128 128 128 128).a = 4973/51 := by
    rw [grayPixel_a, hA, hB]
    norm_num [domClamp, alphaCand]
  have hr : (grayPixel cfgDefaults 128 128 128 128 128 128).r = 652800/4973 := by
    rw [grayPixel_r, ha, hA, hB]
    norm_num [domClamp]
  rw [hA, hB, ha, hr]
  norm_num [abs_lt]

/-- C5 counterexample: at the neutral grayscale configuration with surface
luminance 200 and hidden luminance 100, the computed gray value is
5100/31 ≈ 164.516; the `Uint8ClampedArray` store rounds it to 165, while
truncation of the fractional part would store 164.  The stored byte is not
the floor of the computed value. -/
theorem store_truncates_counterexample :
    toUint8Clamp (grayPixel cfgNeutral 200 200 200 100 100 100).r = 165 ∧
    ⌊(grayPixel cfgNeutral 200 200 200 100 100 100).r⌋ = 164 := by
  have hA : remapA cfgNeutral (luminance 200 200 200) = 200 := by
    norm_num [remapA, clamp255, luminance, scaleA, offsetA, cfgNeutral]
  have hB : remapB cfgNeutral (luminance 100 100 100) = 100 := by
    norm_num [remapB, clamp255, luminance, scaleB, cfgNeutral]
  have ha : (grayPixel cfgNeutral 200 200 200 100 100 100).a = 155 := by
    rw [grayPixel_a, hA, hB]
    norm_num [domClamp, alphaCand]
  have hr : (grayPixel cfgNeutral 200 200 200 100 100 100).r = 5100/31 := by
    rw [grayPixel_r, ha, hA, hB]
    norm_num [domClamp]
  rw [hr]
  constructor
  · have hf : ⌊(5100/31 : ℚ)⌋ = 164 := by norm_num [Int.floor_eq_iff]
    rw [toUint8Clamp, roundTiesEven]
    rw [if_neg (by norm_num), if_neg (by norm_num), hf]
    have htn : Int.toNat 164 = 164 := rfl
    rw [htn, if_pos (by norm_num)]
  · norm_num [Int.floor_eq_iff]

/-- C5 amended: the output channel values are stored through the
`Uint8ClampedArray` conversion — clamp to [0, 255] then round to nearest with
ties to even.  On [0, 255] the stored byte is the floor whenever the
fractional part is below one half, the floor plus one whenever it is above
one half, and at an exact half it is the floor when the floor is even and
the floor plus one when it is odd. -/
theorem store_rounds_ties_even :
    (∀ p : OutPixel, pixelBytes p =
      [toUint8Clamp p.r, toUint8Clamp p.g, toUint8Clamp p.b, toUint8Clamp p.a]) ∧
    (∀ q : ℚ, 0 ≤ q → q ≤ 255 → q - ⌊q⌋ < 1/2 → toUint8Clamp q = (⌊q⌋).toNat) ∧
    (∀ q : ℚ, 0 ≤ q → q ≤ 255 → 1/2 < q - ⌊q⌋ → toUint8Clamp q = (⌊q⌋).toNat + 1) ∧
    (∀ q : ℚ, 0 ≤ q → q ≤ 255 → q - ⌊q⌋ = 1/2 → (⌊q⌋).toNat % 2 = 0 →
      toUint8Clamp q = (⌊q⌋).toNat) ∧
    (∀ q : ℚ, 0 ≤ q → q ≤ 255 → q - ⌊q⌋ = 1/2 → (⌊q⌋).toNat % 2 = 1 →
      toUint8Clamp q = (⌊q⌋).toNat + 1) := by
  refine ⟨fun p => rfl, ?_, ?_, ?_, ?_⟩
  · intro q h0 h255 hfrac
    have hfl0 : (0 : ℤ) ≤ ⌊q⌋ := Int.floor_nonneg.mpr h0
    have hcastQ : ((⌊q⌋.toNat : ℕ) : ℚ) = (⌊q⌋ : ℚ) := by
      rw [← Int.cast_natCast, Int.toNat_of_nonneg hfl0]
    unfold toUint8Clamp
    split_ifs with hq0 hq255
    · have hq : q = 0 := le_antisymm hq0 h0
      subst hq
      norm_num
    · have hq : q = 255 := le_antisymm h255 hq255
      subst hq
      have hf : ⌊(255 : ℚ)⌋ = 255 := by norm_num
      rw [hf]
      rfl
    · unfold roundTiesEven
      rw [if_neg (by rw [hcastQ]; linarith), if_pos (by rw [hcastQ]; linarith)]
  · intro q h0 h255 hfrac
    have hfl0 : (0 : ℤ) ≤ ⌊q⌋ := Int.floor_nonneg.mpr h0
    have hcastQ : ((⌊q⌋.toNat : ℕ) : ℚ) = (⌊q⌋ : ℚ) := by
      rw [← Int.cast_natCast, Int.toNat_of_nonneg hfl0]
    unfold toUint8Clamp
    split_ifs with hq0 hq255
    · have hq : q = 0 := le_antisymm hq0 h0
      subst hq
      norm_num at hfrac
    · have hq : q = 255 := le_antisymm h255 hq255
      subst hq
      norm_num at hfrac
    · unfold roundTiesEven
      rw [if_pos (by rw [hcastQ]; linarith)]
  · intro q h0 h255 hfrac hpar
    have hfl0 : (0 : ℤ) ≤ ⌊q⌋ := Int.floor_nonneg.mpr h0
    have hcastQ : ((⌊q⌋.toNat : ℕ) : ℚ) = (⌊q⌋ : ℚ) := by
      rw [← Int.cast_natCast, Int.toNat_of_nonneg hfl0]
    unfold toUint8Clamp
    split_ifs with hq0 hq255
    · have hq : q = 0 := le_antisymm hq0 h0
      subst hq
      norm_num at hfrac
    · have hq : q = 255 := le_antisymm h255 hq255
      subst hq
      norm_num at hfrac
    · unfold roundTiesEven
      rw [if_neg (by rw [hcastQ]; linarith), if_neg (by rw [hcastQ]; linarith),
        if_neg (by omega)]
  · intro q h0 h255 hfrac hpar
    have hfl0 : (0 : ℤ) ≤ ⌊q⌋ := Int.floor_nonneg.mpr h0
    have hcastQ : ((⌊q⌋.toNat : ℕ) : ℚ) = (⌊q⌋ : ℚ) := by
      rw [← Int.cast_natCast, Int.toNat_of_nonneg hfl0]
    unfold toUint8Clamp
    split_ifs with hq0 hq255
    · have hq : q = 0 := le_antisymm hq0 h0
      subst hq
      norm_num at hfrac
    · have hq : q = 255 := le_antisymm h255 hq255
      subst hq
      norm_num at hfrac
    · unfold roundTiesEven
      rw [if_neg (by rw [hcastQ]; linarith), if_neg (by rw [hcastQ]; linarith),
        if_pos hpar]

/-- C5 amended witness: the four rounding cases at concrete inputs — 1/4
stores its floor, 837/10 rounds up, the tie 5/2 with even floor stores the
floor, and the tie 7/2 with odd floor rounds up. -/
theorem store_rounds_ties_even_witness :
    toUint8Clamp (1/4) = (⌊(1/4 : ℚ)⌋).toNat ∧
    toUint8Clamp (837/10) = (⌊(837/10 : ℚ)⌋).toNat + 1 ∧
    toUint8Clamp (5/2) = (⌊(5/2 : ℚ)⌋).toNat ∧
    toUint8Clamp (7/2) = (⌊(7/2 : ℚ)⌋).toNat + 1 :=
  ⟨store_rounds_ties_even.2.1 (1/4) (by norm_num) (by norm_num) (by norm_num),
   store_rounds_ties_even.2.2.1 (837/10) (by norm_num) (by norm_num) (by norm_num),
   store_rounds_ties_even.2.2.2.1 (5/2) (by norm_num) (by norm_num) (by norm_num)
     (by rw [(by norm_num : ⌊(5/2 : ℚ)⌋ = 2)]; decide),
   store_rounds_ties_even.2.2.2.2 (7/2) (by norm_num) (by norm_num) (by norm_num)
     (by rw [(by norm_num : ⌊(7/2 : ℚ)⌋ = 3)]; decide)⟩

/-- C7: with `dithering = 0` the pipeline consumes no randomness: runs with
any two noise sources on the same input and configuration produce identical
output buffers. -/
theorem no_dither_deterministic (cfg : ProcessingConfig) (h : cfg.dithering = 0)
    (input : List (Pix × Pix)) (r1 r2 : ℕ → ℚ) :
    processImage cfg input r1 = processImage cfg input r2 := by
  have hp : ∀ (a b : Pix) (x y : ℚ), compositePixel cfg a b x = compositePixel cfg a b y := by
    intro a b x y
    simp [compositePixel, ditherNoise, ditheringStrength, h]
  have hc : ∀ (l : List (Pix × Pix)) (i : ℕ),
      compositeFrom cfg l r1 i = compositeFrom cfg l r2 i := by
    intro l
    induction l with
    | nil => intro i; rfl
    | cons pq rest ih =>
        intro i
        simp only [compositeFrom]
        rw [hp pq.1 pq.2 (r1 i) (r2 i), ih (i + 1)]
  simp only [processImage, compositeBuffer, hc]

/-- C7 witness: two different noise sources give the same output on a one-pixel
buffer at the default (dithering-free) configuration. -/
theorem no_dither_deterministic_witness :
    processImage cfgDefaults [(⟨1, 2, 3⟩, ⟨4, 5, 6⟩)] (fun _ => 0) =
      processImage cfgDefaults [(⟨1, 2, 3⟩, ⟨4, 5, 6⟩)] (fun _ => 1) :=
  no_dither_deterministic cfgDefaults rfl [(⟨1, 2, 3⟩, ⟨4, 5, 6⟩)] (fun _ => 0) (fun _ => 1)

/-- C9: an absent output width or height falls back to the minimum of the two
source dimensions, and an explicit 0 behaves identically because the
JavaScript fallback triggers on any falsy value. -/
theorem output_dims_falsy_fallback (cfg : ProcessingConfig) (wA wB hA hB : ℕ) :
    (cfg.width = none ∨ cfg.width = some 0 → outputWidth cfg wA wB = min wA wB) ∧
    (cfg.height = none ∨ cfg.height = some 0 → outputHeight cfg hA hB = min hA hB) := by
  constructor
  · rintro (h | h) <;> simp [outputWidth, outputDim, h]
  · rintro (h | h) <;> simp [outputHeight, outputDim, h]

/-- C9 witness: a configuration with width absent and height an explicit 0
yields the minima of the source dimensions. -/
theorem output_dims_falsy_fallback_witness :
    outputWidth cfgFalsyDims 3 5 = min 3 5 ∧ outputHeight cfgFalsyDims 7 4 = min 7 4 :=
  ⟨(output_dims_falsy_fallback cfgFalsyDims 3 5 7 4).1 (Or.inl rfl),
   (output_dims_falsy_fallback cfgFalsyDims 3 5 7 4).2 (Or.inr rfl)⟩

/-- C4 counterexample: with equal aspect ratios (source 1×1 onto target 1×1)
the cover-fit calculator returns offsetX = 0 and offsetY = 0 simultaneously,
so "exactly one of offsetX = 0 or offsetY = 0" fails at this input. -/
theorem cover_fit_exactly_one_counterexample :
    ¬ (((getCoverDimensions 1 1 1 1).x = 0 ∧ (getCoverDimensions 1 1 1 1).y ≠ 0) ∨
       ((getCoverDimensions 1 1 1 1).x ≠ 0 ∧ (getCoverDimensions 1 1 1 1).y = 0)) := by
  have h : getCoverDimensions 1 1 1 1 = ⟨1, 1, 0, 0⟩ := by
    rw [getCoverDimensions, if_neg (by norm_num)]
    norm_num [CoverDim.mk.injEq]
  rw [h]
  simp

/-- C4 amended: for all positive integer source and target dimensions the
cover-fit result satisfies `renderWidth ≥ targetWidth` and
`renderHeight ≥ targetHeight`, and at least one of the two offsets is 0;
both offsets are 0 only when the two aspect ratios coincide (so "exactly
one" holds whenever the ratios differ). -/
theorem cover_fit_covers (sw sh tw th : ℕ)
    (hsw : 0 < sw) (hsh : 0 < sh) (htw : 0 < tw) (hth : 0 < th) :
    (tw : ℚ) ≤ (getCoverDimensions sw sh tw th).width ∧
    (th : ℚ) ≤ (getCoverDimensions sw sh tw th).height ∧
    ((getCoverDimensions sw sh tw th).x = 0 ∨ (getCoverDimensions sw sh tw th).y = 0) ∧
    ((sw : ℚ) / sh ≠ (tw : ℚ) / th →
      ¬ ((getCoverDimensions sw sh tw th).x = 0 ∧ (getCoverDimensions sw sh tw th).y = 0)) := by
  have hH : (0 : ℚ) < sh := by exact_mod_cast hsh
  have hTW : (0 : ℚ) < tw := by exact_mod_cast htw
  have hTH : (0 : ℚ) < th := by exact_mod_cast hth
  have hR : (0 : ℚ) < (sw : ℚ) / sh := div_pos (by exact_mod_cast hsw) hH
  unfold getCoverDimensions
  split_ifs with hgt
  · dsimp only
    have hwide : (tw : ℚ) < th * ((sw : ℚ) / sh) := by
      have h1 : (tw : ℚ) / th < (sw : ℚ) / sh := hgt
      calc (tw : ℚ) = th * ((tw : ℚ) / th) := by field_simp
        _ < th * ((sw : ℚ) / sh) := mul_lt_mul_of_pos_left h1 hTH
    refine ⟨le_of_lt hwide, le_refl _, Or.inr rfl, fun _ hxy => ?_⟩
    have hx := hxy.1
    have : ((tw : ℚ) - th * ((sw : ℚ) / sh)) / 2 < 0 := by linarith
    rw [hx] at this
    exact lt_irrefl 0 this
  · dsimp only
    have hle : (sw : ℚ) / sh ≤ (tw : ℚ) / th := le_of_not_lt hgt
    have htall : (th : ℚ) ≤ (tw : ℚ) / ((sw : ℚ) / sh) := by
      rw [le_div_iff₀ hR]
      calc (th : ℚ) * ((sw : ℚ) / sh) ≤ th * ((tw : ℚ) / th) :=
            mul_le_mul_of_nonneg_left hle (le_of_lt hTH)
        _ = tw := by field_simp
    refine ⟨le_refl _, htall, Or.inl rfl, fun hne hxy => ?_⟩
    have hlt : (sw : ℚ) / sh < (tw : ℚ) / th := lt_of_le_of_ne hle hne
    have htall2 : (th : ℚ) < (tw : ℚ) / ((sw : ℚ) / sh) := by
      rw [lt_div_iff₀ hR]
      calc (th : ℚ) * ((sw : ℚ) / sh) < th * ((tw : ℚ) / th) :=
            mul_lt_mul_of_pos_left hlt hTH
        _ = tw := by field_simp
    have hy := hxy.2
    have : ((th : ℚ) - (tw : ℚ) / ((sw : ℚ) / sh)) / 2 < 0 := by linarith
    rw [hy] at this
    exact lt_irrefl 0 this

/-- C4 amended witness: a 2×1 source onto a 1×1 target overflows horizontally,
covers the target, and has exactly the vertical offset zero. -/
theorem cover_fit_covers_witness :
    (1 : ℚ) ≤ (getCoverDimensions 2 1 1 1).width ∧
    (1 : ℚ) ≤ (getCoverDimensions 2 1 1 1).height ∧
    ((getCoverDimensions 2 1 1 1).x = 0 ∨ (getCoverDimensions 2 1 1 1).y = 0) ∧
    ((2 : ℚ) / 1 ≠ (1 : ℚ) / 1 →
      ¬ ((getCoverDimensions 2 1 1 1).x = 0 ∧ (getCoverDimensions 2 1 1 1).y = 0)) := by
  have h := cover_fit_covers 2 1 1 1 (by norm_num) (by norm_num) (by norm_num) (by norm_num)
  push_cast at h
  exact h

/-! ### Helper lemmas: steganography bit writer -/

theorem bitIndex_lt (k n : ℕ) (h : k < 3 * n) : bitIndex k < 4 * n := by
  unfold bitIndex
  omega

theorem bitIndex_inj (j k : ℕ) (h : bitIndex j = bitIndex k) : j = k := by
  unfold bitIndex at h
  omega

theorem bitIndex_ne_three (j : ℕ) : bitIndex j ≠ 3 := by
  unfold bitIndex
  omega

set_option maxRecDepth 10000 in
/-- Arithmetic content of the LSB write `(x & 0xFE) | (bit & 1)` on a byte. -/
theorem lsb_write_value (x b : ℕ) (hx : x < 256) :
    (x &&& 0xFE) ||| (b &&& 1) = 2 * (x / 2) + b % 2 := by
  rw [Nat.and_one_is_mod]
  have h : ∀ c, c < 2 → ∀ y, y < 256 → (y &&& 0xFE) ||| c = 2 * (y / 2) + c := by decide
  exact h (b % 2) (Nat.mod_lt b (by norm_num)) x hx

theorem getD_lt_256 (data : List ℕ) (i : ℕ) (h : ∀ x ∈ data, x < 256) :
    data.getD i 0 < 256 := by
  rcases lt_or_ge i data.length with hi | hi
  · rw [List.getD_eq_getElem?_getD, List.getElem?_eq_getElem hi, Option.getD_some]
    exact h _ (List.getElem_mem hi)
  · rw [List.getD_eq_getElem?_getD, List.getElem?_eq_none hi]
    norm_num

theorem writeBit_length (data : List ℕ) (cap cursor bit : ℕ) :
    (writeBit data cap cursor bit).length = data.length := by
  unfold writeBit
  split_ifs
  · exact List.length_set data _ _
  · rfl

theorem writeBits_length (cap : ℕ) (bits : List ℕ) :
    ∀ (data : List ℕ) (cursor : ℕ), (writeBits cap data cursor bits).length = data.length := by
  induction bits with
  | nil => intro data cursor; rfl
  | cons b rest ih => intro data cursor; rw [writeBits, ih, writeBit_length]

theorem writeBit_mem_lt (data : List ℕ) (cap cursor bit : ℕ)
    (h : ∀ x ∈ data, x < 256) : ∀ x ∈ writeBit data cap cursor bit, x < 256 := by
  unfold writeBit
  split_ifs with hc
  · intro x hx
    rcases List.mem_or_eq_of_mem_set hx with hmem | heq
    · exact h x hmem
    · subst heq
      rw [lsb_write_value _ _ (getD_lt_256 data _ h)]
      have := getD_lt_256 data (bitIndex cursor) h
      omega
  · exact h

theorem writeBits_mem_lt (cap : ℕ) (bits : List ℕ) :
    ∀ (data : List ℕ) (cursor : ℕ), (∀ x ∈ data, x < 256) →
      ∀ x ∈ writeBits cap data cursor bits, x < 256 := by
  induction bits with
  | nil => intro data cursor h; exact h
  | cons b rest ih =>
      intro data cursor h
      rw [writeBits]
      exact ih _ _ (writeBit_mem_lt _ _ _ _ h)

/-- A position no pending write addresses keeps its byte unchanged. -/
theorem writeBits_getD_untouched (cap : ℕ) (bits : List ℕ) :
    ∀ (data : List ℕ) (cursor i : ℕ),
      (∀ j, j < bits.length → bitIndex (cursor + j) ≠ i) →
      (writeBits cap data cursor bits).getD i 0 = data.getD i 0 := by
  induction bits with
  | nil => intro data cursor i _; rfl
  | cons b rest ih =>
      intro data cursor i h
      rw [writeBits]
      have hrest : ∀ j, j < rest.length → bitIndex (cursor + 1 + j) ≠ i := by
        intro j hj
        have := h (j + 1) (by simpa using Nat.succ_lt_succ hj)
        rwa [show cursor + (j + 1) = cursor + 1 + j by omega] at this
      rw [ih (writeBit data cap cursor b) (cursor + 1) i hrest]
      have hcur : bitIndex cursor ≠ i := by
        have := h 0 (by simp)
        rwa [Nat.add_zero] at this
      unfold writeBit
      split_ifs with hc
      · rw [List.getD_eq_getElem?_getD, List.getElem?_set_ne hcur,
          ← List.getD_eq_getElem?_getD]
      · rfl

/-- The byte addressed by pending bit `k` ends with LSB equal to that bit and
keeps its high bits. -/
theorem writeBits_getD_written (cap : ℕ) (bits : List ℕ) :
    ∀ (data : List ℕ) (cursor k : ℕ), (∀ x ∈ data, x < 256) →
      k < bits.length → cursor + k < cap → bitIndex (cursor + k) < data.length →
      (writeBits cap data cursor bits).getD (bitIndex (cursor + k)) 0 =
        2 * (data.getD (bitIndex (cursor + k)) 0 / 2) + bits.getD k 0 % 2 := by
  induction bits with
  | nil => intro data cursor k _ hk; exact absurd hk (by simp)
  | cons b rest ih =>
      intro data cursor k h256 hk hcap hlen
      rw [writeBits]
      rcases Nat.eq_zero_or_pos k with hk0 | hkpos
      · subst hk0
        simp only [Nat.add_zero] at hcap hlen ⊢
        have hwb : (writeBit data cap cursor b).getD (bitIndex cursor) 0 =
            2 * (data.getD (bitIndex cursor) 0 / 2) + b % 2 := by
          unfold writeBit
          rw [if_pos hcap, List.getD_eq_getElem?_getD, List.getElem?_set_self hlen,
            Option.getD_some]
          exact lsb_write_value _ _ (getD_lt_256 data _ h256)
        have huntouched : ∀ j, j < rest.length → bitIndex (cursor + 1 + j) ≠ bitIndex cursor := by
          intro j _ hcontra
          have := bitIndex_inj _ _ hcontra
          omega
        rw [writeBits_getD_untouched cap rest (writeBit data cap cursor b) (cursor + 1)
          (bitIndex cursor) huntouched, hwb]
        rfl
      · obtain ⟨j, rfl⟩ : ∃ j, k = j + 1 := ⟨k - 1, by omega⟩
        have hne : bitIndex cursor ≠ bitIndex (cursor + (j + 1)) := by
          intro hcontra
          have := bitIndex_inj _ _ hcontra
          omega
        have hstep : (writeBit data cap cursor b).getD (bitIndex (cursor + (j + 1))) 0 =
            data.getD (bitIndex (cursor + (j + 1))) 0 := by
          unfold writeBit
          split_ifs
          · rw [List.getD_eq_getElem?_getD, List.getElem?_set_ne hne,
              ← List.getD_eq_getElem?_getD]
          · rfl
        have hlen' : bitIndex (cursor + 1 + j) < (writeBit data cap cursor b).length := by
          rw [writeBit_length, show cursor + 1 + j = cursor + (j + 1) by omega]
          exact hlen
        have hres := ih (writeBit data cap cursor b) (cursor + 1) j
          (writeBit_mem_lt _ _ _ _ h256) (by simpa using hk)
          (by omega) hlen'
        rw [show cursor + 1 + j = cursor + (j + 1) by omega] at hres
        rw [hres, hstep]
        rfl

/-- Every byte of the buffer keeps its high seven bits across the whole write
pass. -/
theorem writeBits_getD_div2 (cap : ℕ) (bits : List ℕ) :
    ∀ (data : List ℕ) (cursor i : ℕ), (∀ x ∈ data, x < 256) →
      (writeBits cap data cursor bits).getD i 0 / 2 = data.getD i 0 / 2 := by
  induction bits with
  | nil => intro data cursor i _; rfl
  | cons b rest ih =>
      intro data cursor i h256
      rw [writeBits, ih _ _ _ (writeBit_mem_lt _ _ _ _ h256)]
      unfold writeBit
      split_ifs with hc
      · rcases eq_or_ne (bitIndex cursor) i with heq | hne
        · subst heq
          by_cases hin : bitIndex cursor < data.length
          · rw [List.getD_eq_getElem?_getD, List.getElem?_set_self hin, Option.getD_some,
              lsb_write_value _ _ (getD_lt_256 data _ h256)]
            omega
          · rw [List.set_eq_of_length_le (by omega)]
        · rw [List.getD_eq_getElem?_getD, List.getElem?_set_ne hne,
            ← List.getD_eq_getElem?_getD]
      · rfl

theorem length_lengthBits (len : ℕ) : (lengthBits len).length = 32 := by
  simp [lengthBits]

theorem payloadBits_length_ge (bytes : List ℕ) : 32 ≤ (payloadBits bytes).length := by
  unfold payloadBits
  rw [List.length_append, length_lengthBits]
  omega

/-- The first 32 bits of the stream are the length header, low bit first. -/
theorem payloadBits_getD_header (bytes : List ℕ) (i : ℕ) (h : i < 32) :
    (payloadBits bytes).getD i 0 = (bytes.length >>> i) % 2 := by
  unfold payloadBits
  rw [List.getD_eq_getElem?_getD,
    List.getElem?_append_left (by rw [length_lengthBits]; omega)]
  rw [lengthBits, List.getElem?_map, List.getElem?_range h]
  simp [Nat.and_one_is_mod]

/-! ### Claim theorems: steganography -/

/-- C3: embedding the payload bytes of "hi" (0x68 0x69) into any byte buffer
of at least 16 pixels whose entries are bytes, then applying the symmetric
low-bit-first extraction, recovers length 2 and exactly the bytes
[0x68, 0x69]; moreover every byte of the buffer keeps its high seven bits
(only LSBs of written channels change) and the buffer length is unchanged. -/
theorem steg_roundtrip (n : ℕ) (data : List ℕ) (hlen : data.length = 4 * n)
    (hn : 16 ≤ n) (h256 : ∀ x ∈ data, x < 256) :
    extractLength (embedSteganography data [104, 105]) = 2 ∧
    extractPayload (embedSteganography data [104, 105]) = [104, 105] ∧
    (∀ i, (embedSteganography data [104, 105]).getD i 0 / 2 = data.getD i 0 / 2) ∧
    (embedSteganography data [104, 105]).length = data.length := by
  have hcap : (data.length / 4) * 3 = 3 * n := by rw [hlen]; omega
  have hemb : embedSteganography data [104, 105] =
      writeBits (3 * n) data 0 (payloadBits [104, 105]) := by
    rw [embedSteganography, if_neg (by simp), hcap]
  have hlen48 : (payloadBits ([104, 105] : List ℕ)).length = 48 := rfl
  have hbit : ∀ k, k < 48 → readBit (embedSteganography data [104, 105]) k =
      (payloadBits [104, 105]).getD k 0 % 2 := by
    intro k hk
    rw [readBit, hemb]
    have hw := writeBits_getD_written (3 * n) (payloadBits [104, 105]) data 0 k h256
      (by rw [hlen48]; omega) (by omega)
      (by rw [Nat.zero_add, hlen]; exact bitIndex_lt k n (by omega))
    simp only [Nat.zero_add] at hw
    rw [hw]
    omega
  have hL : extractLength (embedSteganography data [104, 105]) = 2 := by
    rw [extractLength, readBitsLE]
    have hcongr : ((List.range 32).map
          fun i => readBit (embedSteganography data [104, 105]) (0 + i) * 2 ^ i) =
        (List.range 32).map fun i => (payloadBits [104, 105]).getD i 0 % 2 * 2 ^ i := by
      apply List.map_congr_left
      intro i hi
      rw [List.mem_range] at hi
      rw [Nat.zero_add, hbit i (by omega)]
    rw [hcongr]
    decide
  have hB1 : readBitsLE (embedSteganography data [104, 105]) 32 8 = 104 := by
    rw [readBitsLE]
    have hcongr : ((List.range 8).map
          fun i => readBit (embedSteganography data [104, 105]) (32 + i) * 2 ^ i) =
        (List.range 8).map fun i => (payloadBits [104, 105]).getD (32 + i) 0 % 2 * 2 ^ i := by
      apply List.map_congr_left
      intro i hi
      rw [List.mem_range] at hi
      rw [hbit (32 + i) (by omega)]
    rw [hcongr]
    decide
  have hB2 : readBitsLE (embedSteganography data [104, 105]) 40 8 = 105 := by
    rw [readBitsLE]
    have hcongr : ((List.range 8).map
          fun i => readBit (embedSteganography data [104, 105]) (40 + i) * 2 ^ i) =
        (List.range 8).map fun i => (payloadBits [104, 105]).getD (40 + i) 0 % 2 * 2 ^ i := by
      apply List.map_congr_left
      intro i hi
      rw [List.mem_range] at hi
      rw [hbit (40 + i) (by omega)]
    rw [hcongr]
    decide
  refine ⟨hL, ?_, ?_, ?_⟩
  · rw [extractPayload, hL]
    have hr2 : List.range 2 = [0, 1] := rfl
    rw [hr2]
    simp only [List.map_cons, List.map_nil]
    rw [show 32 + 8 * 0 = 32 from rfl, show 32 + 8 * 1 = 40 from rfl, hB1, hB2]
  · intro i
    rw [hemb]
    exact writeBits_getD_div2 _ _ data 0 i h256
  · rw [hemb]
    exact writeBits_length _ _ data 0

/-- C3 witness: a 16-pixel all-zero buffer round-trips the payload "hi". -/
theorem steg_roundtrip_witness :
    extractLength (embedSteganography (List.replicate 64 0) [104, 105]) = 2 ∧
    extractPayload (embedSteganography (List.replicate 64 0) [104, 105]) = [104, 105] ∧
    (∀ i, (embedSteganography (List.replicate 64 0) [104, 105]).getD i 0 / 2 =
      (List.replicate 64 0).getD i 0 / 2) ∧
    (embedSteganography (List.replicate 64 0) [104, 105]).length =
      (List.replicate 64 0).length :=
  steg_roundtrip 16 (List.replicate 64 0) (by norm_num) (by norm_num)
    (fun x hx => by rw [List.eq_of_mem_replicate hx]; norm_num)

/-- C6: on a one-pixel buffer (capacity 3 bits) any non-empty payload is
truncated without error: the R, G, B bytes receive the first three
length-header bits in their LSBs, the alpha byte is untouched, every byte
keeps its high seven bits, and the buffer length is unchanged. -/
theorem steg_capacity_truncates (bytes : List ℕ) (hne : bytes ≠ []) (data : List ℕ)
    (hlen : data.length = 4) (h256 : ∀ x ∈ data, x < 256) :
    (embedSteganography data bytes).getD 0 0 =
      2 * (data.getD 0 0 / 2) + (bytes.length >>> 0) % 2 ∧
    (embedSteganography data bytes).getD 1 0 =
      2 * (data.getD 1 0 / 2) + (bytes.length >>> 1) % 2 ∧
    (embedSteganography data bytes).getD 2 0 =
      2 * (data.getD 2 0 / 2) + (bytes.length >>> 2) % 2 ∧
    (embedSteganography data bytes).getD 3 0 = data.getD 3 0 ∧
    (∀ i, (embedSteganography data bytes).getD i 0 / 2 = data.getD i 0 / 2) ∧
    (embedSteganography data bytes).length = data.length := by
  have hne2 : bytes.isEmpty = false := by
    cases bytes with
    | nil => exact absurd rfl hne
    | cons a t => rfl
  have hcap : (data.length / 4) * 3 = 3 := by rw [hlen]
  have hemb : embedSteganography data bytes = writeBits 3 data 0 (payloadBits bytes) := by
    rw [embedSteganography, if_neg (by simp [hne2]), hcap]
  have hplen := payloadBits_length_ge bytes
  have hchannel : ∀ k, k < 3 →
      (embedSteganography data bytes).getD k 0 =
        2 * (data.getD k 0 / 2) + (bytes.length >>> k) % 2 := by
    intro k hk
    have hbi : bitIndex (0 + k) = k := by
      unfold bitIndex
      omega
    have hw := writeBits_getD_written 3 (payloadBits bytes) data 0 k h256
      (by omega) (by omega) (by rw [hbi, hlen]; omega)
    rw [hbi] at hw
    rw [hemb, hw, payloadBits_getD_header bytes k (by omega)]
    omega
  refine ⟨hchannel 0 (by norm_num), hchannel 1 (by norm_num), hchannel 2 (by norm_num),
    ?_, ?_, ?_⟩
  · rw [hemb]
    exact writeBits_getD_untouched 3 (payloadBits bytes) data 0 3
      (fun j _ => bitIndex_ne_three (0 + j))
  · intro i
    rw [hemb]
    exact writeBits_getD_div2 _ _ data 0 i h256
  · rw [hemb]
    exact writeBits_length _ _ data 0

/-- C6 witness: embedding the one-byte payload [104] into the single-pixel
buffer [255, 254, 7, 9] rewrites only the three LSBs and leaves the alpha
byte alone. -/
theorem steg_capacity_truncates_witness :
    (embedSteganography [255, 254, 7, 9] [104]).getD 0 0 =
      2 * (([255, 254, 7, 9] : List ℕ).getD 0 0 / 2) + (([104] : List ℕ).length >>> 0) % 2 ∧
    (embedSteganography [255, 254, 7, 9] [104]).getD 1 0 =
      2 * (([255, 254, 7, 9] : List ℕ).getD 1 0 / 2) + (([104] : List ℕ).length >>> 1) % 2 ∧
    (embedSteganography [255, 254, 7, 9] [104]).getD 2 0 =
      2 * (([255, 254, 7, 9] : List ℕ).getD 2 0 / 2) + (([104] : List ℕ).length >>> 2) % 2 ∧
    (embedSteganography [255, 254, 7, 9] [104]).getD 3 0 =
      ([255, 254, 7, 9] : List ℕ).getD 3 0 ∧
    (∀ i, (embedSteganography [255, 254, 7, 9] [104]).getD i 0 / 2 =
      ([255, 254, 7, 9] : List ℕ).getD i 0 / 2) ∧
    (embedSteganography [255, 254, 7, 9] [104]).length =
      ([255, 254, 7, 9] : List ℕ).length :=
  steg_capacity_truncates [104] (by simp) [255, 254, 7, 9] (by simp) (by decide)
